import Mathlib

/-!
Verification of `src/src/priority_queue.hpp`, a mergeable max-priority queue
backed by a leftist heap (`sjtu::priority_queue<T, Compare>`).

Two embeddings of the same C++ code are developed:

* a *pure functional* model (`Node`, `meld`, `PQ.push`, `PQ.popE`, ...) used
  for the value-level claims (heap order, leftist invariants, size
  bookkeeping, heap-sort), where the comparator is a total Boolean function
  `lt : α → α → Bool` translating `Compare::operator()`; and
* a *store-based* model (`Store`, `meldH`, `pushH`, ...) in which every node
  lives at an address and every field write of the C++ is an explicit store
  update, used for the exception-safety and resource (leak) claims, where
  the comparator is fallible (`cmp : α → α → Except ε Bool`, `.error`
  translating a thrown exception).
-/
/-- Translation of `struct Node`: a tree cell with a value, two child links
and the stored null-path length `int dist` (initialised to `1` by the
constructor). `nil` translates the null pointer. -/
inductive Node (α : Type) where
  | nil : Node α
  | node (val : α) (left right : Node α) (dist : Int) : Node α
deriving DecidableEq

/-- Number of nodes of a tree (the model-level node count, used to interpret
"number of nodes reachable from the root"). -/
def Node.size : Node α → Nat
  | .nil => 0
  | .node _ l r _ => 1 + l.size + r.size

/-- Translation of `npl`: `x ? x->dist : 0` (reads the stored `dist`). -/
def npl : Node α → Int
  | .nil => 0
  | .node _ _ _ d => d

/-- Multiset of values stored in a tree. -/
def Node.toMultiset : Node α → Multiset α
  | .nil => 0
  | .node v l r _ => v ::ₘ (l.toMultiset + r.toMultiset)

/-- Translation of `meld(Node *a, Node *b)` for a non-throwing comparator
`lt`.  The C++ swaps the local pointers `a`/`b` when `comp(a->val, b->val)`
holds, recurses on `meld(a->right, b)`, assigns `a->right`, restores the
leftist property by swapping children when `npl(a->left) < npl(a->right)`,
and finally sets `a->dist = npl(a->right) + 1`. -/
def meld (lt : α → α → Bool) : Node α → Node α → Node α
  | .nil, b => b
  | .node av al ar ad, .nil => .node av al ar ad
  | .node av al ar ad, .node bv bl br bd =>
    if lt av bv then
      let nr := meld lt br (.node av al ar ad)
      if npl bl < npl nr then .node bv nr bl (npl bl + 1)
      else .node bv bl nr (npl nr + 1)
    else
      let nr := meld lt ar (.node bv bl br bd)
      if npl al < npl nr then .node av nr al (npl al + 1)
      else .node av al nr (npl nr + 1)
termination_by a b => a.size + b.size
decreasing_by
  all_goals (simp only [Node.size]; omega)

/-- Translation of `clone`: `new Node(x->val)` (fresh cell, `dist = 1`),
then `n->dist = x->dist`, `n->left = clone(x->left)`,
`n->right = clone(x->right)`.  In the pure model the freshly built tree is
a value equal to the source tree. -/
def cloneP : Node α → Node α
  | .nil => .nil
  | .node v l r d => .node v (cloneP l) (cloneP r) d

/-- Modelled from the spec: the distinguished `EmptyQueue` error condition
(`container_is_empty`, declared in `exceptions.hpp`, which is not part of
`src/`); the spec states it is the only error kind the component itself
introduces, so the type has a single constructor. -/
inductive QErr where
  | containerIsEmpty : QErr
deriving DecidableEq

/-- Translation of the `priority_queue` handle: the root link and the
element count `cnt` (the comparator is passed to the operations). -/
structure PQ (α : Type) where
  root : Node α
  cnt : Nat
deriving DecidableEq

/-- A default-constructed queue: `root = nullptr`, `cnt = 0`. -/
def emptyPQ : PQ α := ⟨.nil, 0⟩

/-- Translation of `empty()`: `cnt == 0`. -/
def PQ.isEmptyQ (q : PQ α) : Bool := q.cnt = 0

/-- Translation of `size()`. -/
def PQ.sizeQ (q : PQ α) : Nat := q.cnt

/-- Translation of `top()`: throw `container_is_empty` when `empty()`,
otherwise return `root->val`.  The inner `Option` records the value read
from the root; `none` marks the null-dereference the C++ would perform if
`cnt != 0` while `root == nullptr` (unreachable in reachable states). -/
def PQ.top (q : PQ α) : Except QErr (Option α) :=
  if q.cnt = 0 then .error .containerIsEmpty
  else
    match q.root with
    | .nil => .ok none
    | .node v _ _ _ => .ok (some v)

/-- Translation of `push(e)` for a non-throwing comparator: allocate the
single node `new Node(e)` (children null, `dist = 1`), meld it with the
root, increment `cnt`. -/
def PQ.push (lt : α → α → Bool) (q : PQ α) (e : α) : PQ α :=
  { root := meld lt q.root (.node e .nil .nil 1), cnt := q.cnt + 1 }

/-- Translation of `pop()` for a non-throwing comparator: throw
`container_is_empty` when `empty()`, otherwise meld the root's children,
decrement `cnt`, delete the old root.  The inner `none` marks the C++
null-root dereference (unreachable in reachable states). -/
def PQ.popE (lt : α → α → Bool) (q : PQ α) : Except QErr (Option (PQ α)) :=
  if q.cnt = 0 then .error .containerIsEmpty
  else
    match q.root with
    | .nil => .ok none
    | .node _ l r _ => .ok (some { root := meld lt l r, cnt := q.cnt - 1 })

/-- The successful result of `pop()`, when defined. -/
def PQ.popF (lt : α → α → Bool) (q : PQ α) : Option (PQ α) :=
  match q.popE lt with
  | .ok (some q') => some q'
  | _ => none

/-- Translation of `merge(other)` for a non-throwing comparator.  The flag
`same` translates the handle-identity test `this == &other`: when it holds
the call returns immediately; otherwise the receiver takes the meld of both
roots and the summed count, and `other` becomes the empty queue. -/
def PQ.mergeW (lt : α → α → Bool) (same : Bool) (q other : PQ α) : PQ α × PQ α :=
  if same then (q, other)
  else ({ root := meld lt q.root other.root, cnt := q.cnt + other.cnt },
        { root := .nil, cnt := 0 })

/-- Translation of the copy constructor for a non-throwing element copy:
`cnt` copied, root deep-cloned. -/
def PQ.copy (q : PQ α) : PQ α := { root := cloneP q.root, cnt := q.cnt }

/-- Reading `top()` then `pop()` repeatedly, `fuel` times (the callers drive
this with `fuel = cnt`). -/
def popList (lt : α → α → Bool) : Nat → PQ α → List α
  | 0, _ => []
  | n + 1, q =>
    match q.top, q.popF lt with
    | .ok (some v), some q' => v :: popList lt n q'
    | _, _ => []

/-- Check that a root value `v` does not precede a child tree's root:
`true` when the child is absent or `lt v childval` fails. -/
def rootLE (lt : α → α → Bool) (v : α) : Node α → Bool
  | .nil => true
  | .node w _ _ _ => !lt v w

/-- Heap order: every node's value does not precede either child's value,
recursively (spec invariant 3). -/
def heapOrdB (lt : α → α → Bool) : Node α → Bool
  | .nil => true
  | .node v l r _ => rootLE lt v l && rootLE lt v r && heapOrdB lt l && heapOrdB lt r

/-- Leftist and rank-consistency invariants over the stored `dist` fields:
for every node, `npl(right) <= npl(left)` and `dist = npl(right) + 1`
(spec invariants 1 and 2; `npl nil = 0` models `rank(absent) = 0`). -/
def leftistOkB : Node α → Bool
  | .nil => true
  | .node _ l r d => decide (npl r ≤ npl l) && decide (d = npl r + 1) && leftistOkB l && leftistOkB r

/-- Queue states reachable from a default-constructed queue by the public
operations (`push`, `pop`, `merge` of two reachable queues, copy
construction, copy assignment), with a non-throwing comparator `lt`. -/
inductive Reachable (lt : α → α → Bool) : PQ α → Prop where
  | empty : Reachable lt emptyPQ
  | push (q : PQ α) (e : α) : Reachable lt q → Reachable lt (q.push lt e)
  | pop (q q' : PQ α) : Reachable lt q → q.popF lt = some q' → Reachable lt q'
  | mergeL (q o : PQ α) : Reachable lt q → Reachable lt o →
      Reachable lt (PQ.mergeW lt false q o).1
  | mergeR (q o : PQ α) : Reachable lt q → Reachable lt o →
      Reachable lt (PQ.mergeW lt false q o).2
  | copy (q : PQ α) : Reachable lt q → Reachable lt q.copy
  | assign (q o : PQ α) : Reachable lt o → Reachable lt o.copy

def ltNat : Nat → Nat → Bool := fun a b => decide (a < b)

def pushAll (lt : α → α → Bool) (q : PQ α) (es : List α) : PQ α :=
  es.foldl (fun acc e => acc.push lt e) q

def meldCount (lt : α → α → Bool) : Node α → Node α → Nat
  | .nil, _ => 0
  | .node _ _ _ _, .nil => 0
  | .node av al ar ad, .node bv bl br bd =>
    if lt av bv then 1 + meldCount lt br (.node av al ar ad)
    else 1 + meldCount lt ar (.node bv bl br bd)
termination_by a b => a.size + b.size
decreasing_by
  all_goals (simp only [Node.size]; omega)

def PQ.mergeWC (lt : α → α → Bool) (same : Bool) (q other : PQ α) :
    (PQ α × PQ α) × Nat :=
  if same then ((q, other), 0)
  else (({ root := meld lt q.root other.root, cnt := q.cnt + other.cnt },
         { root := .nil, cnt := 0 }),
        meldCount lt q.root other.root)

structure PQC (α : Type) where
  root : Node α
  cnt : Nat
  comp : α → α → Bool

def assignWC (same : Bool) (q other : PQC α) : PQC α × Nat :=
  if same then (q, 0)
  else ({ root := cloneP other.root, cnt := other.cnt, comp := other.comp },
        other.root.size)

abbrev Addr := Nat

/-- A node cell as it sits in memory: the fields of `struct Node`, with the
child pointers as optional addresses. -/
structure Cell (α : Type) where
  val : α
  left : Option Addr
  right : Option Addr
  dist : Int
deriving DecidableEq

/-- The node heap: `cells[a]` is the cell at address `a`, or `none` once the
node at `a` has been `delete`d (or the address never allocated). -/
structure Store (α : Type) where
  cells : List (Option (Cell α))
deriving DecidableEq

def Store.get (s : Store α) (a : Addr) : Option (Cell α) :=
  (s.cells.getD a none)

def Store.alloc (s : Store α) (c : Cell α) : Addr × Store α :=
  (s.cells.length, ⟨s.cells ++ [some c]⟩)

def Store.set (s : Store α) (a : Addr) (c : Cell α) : Store α :=
  ⟨s.cells.set a (some c)⟩

def Store.free (s : Store α) (a : Addr) : Store α :=
  ⟨s.cells.set a none⟩

def Store.alive (s : Store α) (a : Addr) : Bool :=
  (s.get a).isSome

/-- Outcome of an internal tree routine: normal return of a root link, a
propagating exception carrying the store as it is at unwind time, or
undefined behaviour (null/dangling dereference; also used when the fuel
that drives the model's recursion runs out). -/
inductive MOut (ε α : Type) where
  | ok (s : Store α) (r : Option Addr)
  | thr (s : Store α) (e : ε)
  | ub
deriving DecidableEq

/-- Translation of `npl` reading from the store: `x ? x->dist : 0`;
`none` is a dangling read. -/
def nplH (s : Store α) : Option Addr → Option Int
  | none => some 0
  | some a => (s.get a).map (fun c => c.dist)

/-- The writes `meld` performs after its recursive call has returned `nr`
(with `w` the node the C++ calls `a` after the swap):
`a->right = nr`, the conditional child swap, and `a->dist = npl(a->right) + 1`. -/
def afterRec (s : Store α) (w : Addr) (nr : Option Addr) : Option (Store α) := do
  let c1 ← s.get w
  let s2 := s.set w { c1 with right := nr }
  let c2 ← s2.get w
  let dl ← nplH s2 c2.left
  let dr ← nplH s2 c2.right
  let s3 := if dl < dr then s2.set w { c2 with left := c2.right, right := c2.left } else s2
  let c3 ← s3.get w
  let dr2 ← nplH s3 c3.right
  some (s3.set w { c3 with dist := dr2 + 1 })

/-- What `meld` does with the result of its recursive call: propagate
`ub`/exception untouched, or perform the `afterRec` writes on success. -/
def meldCont (m : MOut ε α) (w : Addr) : MOut ε α :=
  match m with
  | .ub => .ub
  | .thr s' e => .thr s' e
  | .ok s' nr =>
    match afterRec s' w nr with
    | none => .ub
    | some s4 => .ok s4 (some w)

/-- Translation of `meld(Node *a, Node *b)` over the explicit store, with a
fallible comparator (`.error` = the comparator threw).  The comparator is
invoked before any field of either node is touched; all writes happen in
`afterRec`, only after the recursive call has returned normally. -/
def meldH (cmp : α → α → Except ε Bool) : Nat → Store α → Option Addr → Option Addr → MOut ε α
  | 0, _, _, _ => .ub
  | _ + 1, s, none, b => .ok s b
  | _ + 1, s, some a, none => .ok s (some a)
  | fuel + 1, s, some a, some b =>
    match s.get a, s.get b with
    | some ca, some cb =>
      (match cmp ca.val cb.val with
      | .error e => .thr s e
      | .ok res =>
        let w := if res then b else a
        let cw := if res then cb else ca
        let l := if res then a else b
        meldCont (meldH cmp fuel s cw.right (some l)) w)
    | _, _ => .ub

/-- Outcome of `top()`: the returned value, the `EmptyQueue` error, or a
null dereference.  `top` is `const`: it cannot modify the store. -/
inductive TOut (α : Type) where
  | ok (v : α)
  | emp
  | ub
deriving DecidableEq

/-- The queue handle: the root link and the count, as stored in the
`priority_queue` object itself. -/
structure Handle where
  root : Option Addr
  cnt : Nat
deriving DecidableEq

/-- Outcome of a mutating queue operation on one handle. -/
inductive OpOut (ε α : Type) where
  | ok (s : Store α) (q : Handle)
  | emp (s : Store α) (q : Handle)
  | thr (s : Store α) (q : Handle) (e : ε)
  | ub
deriving DecidableEq

/-- Translation of `top()`: throw `container_is_empty` when `empty()`,
otherwise read `root->val`. -/
def topH (s : Store α) (q : Handle) : TOut α :=
  if q.cnt = 0 then .emp
  else
    match q.root with
    | none => .ub
    | some r =>
      match s.get r with
      | none => .ub
      | some c => .ok c.val

/-- Translation of `push(e)`: allocate `new Node(e)`, meld it with the
root; on success commit `root`/`++cnt`; if the meld threw, `delete n` and
rethrow with the handle untouched. -/
def pushH (cmp : α → α → Except ε Bool) (fuel : Nat) (s : Store α) (q : Handle) (e : α) :
    OpOut ε α :=
  let na := (s.alloc ⟨e, none, none, 1⟩).1
  let s1 := (s.alloc ⟨e, none, none, 1⟩).2
  match meldH cmp fuel s1 q.root (some na) with
  | .ub => .ub
  | .thr s2 ex => .thr (s2.free na) q ex
  | .ok s2 nr => .ok s2 ⟨nr, q.cnt + 1⟩

/-- Translation of `pop()`: throw `container_is_empty` when `empty()`,
otherwise meld the root's children; on success commit `root`/`--cnt` and
`delete` the old root; if the meld threw, rethrow with nothing changed. -/
def popH (cmp : α → α → Except ε Bool) (fuel : Nat) (s : Store α) (q : Handle) :
    OpOut ε α :=
  if q.cnt = 0 then .emp s q
  else
    match q.root with
    | none => .ub
    | some r =>
      match s.get r with
      | none => .ub
      | some c =>
        match meldH cmp fuel s c.left c.right with
        | .ub => .ub
        | .thr s' ex => .thr s' q ex
        | .ok s' nr => .ok (s'.free r) ⟨nr, q.cnt - 1⟩

/-- Outcome of `merge(other)`: both handles are part of the observable
state. -/
inductive MgOut (ε α : Type) where
  | ok (s : Store α) (q other : Handle)
  | thr (s : Store α) (q other : Handle) (e : ε)
  | ub
deriving DecidableEq

/-- Translation of `merge(other)`.  `same` translates `this == &other`;
when it holds the call returns at once.  Otherwise the roots are melded;
only on success are `root`, `cnt` committed and `other` cleared; if the
meld threw, both handles are untouched. -/
def mergeH (cmp : α → α → Except ε Bool) (fuel : Nat) (s : Store α) (same : Bool)
    (q other : Handle) : MgOut ε α :=
  if same then .ok s q other
  else
    match meldH cmp fuel s q.root other.root with
    | .ub => .ub
    | .thr s' e => .thr s' q other e
    | .ok s' nr => .ok s' ⟨nr, q.cnt + other.cnt⟩ ⟨none, 0⟩

/-- Translation of `clone(Node *x)` with a fallible element copy `cp`
(translating `T`'s copy constructor inside `new Node(x->val)`; when the
copy throws, the C++ runtime frees the just-made allocation, so the model
performs the copy before the allocation).  Then `n->dist = x->dist`,
`n->left = clone(x->left)`, `n->right = clone(x->right)`.  There is no
cleanup handler: an exception from a recursive call propagates with every
node already allocated by this clone still in the store. -/
def cloneH (cp : α → Except ε α) : Nat → Store α → Option Addr → MOut ε α
  | 0, _, _ => .ub
  | _ + 1, s, none => .ok s none
  | fuel + 1, s, some x =>
    match s.get x with
    | none => .ub
    | some c =>
      match cp c.val with
      | .error e => .thr s e
      | .ok v =>
        let na := (s.alloc ⟨v, none, none, 1⟩).1
        let s1b := (s.alloc ⟨v, none, none, 1⟩).2.set na ⟨v, none, none, c.dist⟩
        match cloneH cp fuel s1b c.left with
        | .ub => .ub
        | .thr s2 e => .thr s2 e
        | .ok s2 nl =>
          match s2.get na with
          | none => .ub
          | some cna =>
            match cloneH cp fuel (s2.set na { cna with left := nl }) c.right with
            | .ub => .ub
            | .thr s4 e => .thr s4 e
            | .ok s4 nr =>
              match s4.get na with
              | none => .ub
              | some cna2 => .ok (s4.set na { cna2 with right := nr }) (some na)

/-- Translation of `destroy(Node *x)`: destroy both subtrees, then
`delete x`.  `none` is the dangling/fuel-out case. -/
def destroyH : Nat → Store α → Option Addr → Option (Store α)
  | _, s, none => some s
  | 0, _, some _ => none
  | fuel + 1, s, some a =>
    match s.get a with
    | none => none
    | some c => do
      let s1 ← destroyH fuel s c.left
      let s2 ← destroyH fuel s1 c.right
      some (s2.free a)

/-- Translation of `operator=`: return at once on self-assignment
(`this == &other`); otherwise copy-construct a temporary (a clone of
`other`'s tree), swap roots and counts with it, and let the temporary's
destructor destroy the old tree.  If the clone throws, the exception
propagates before any swap, leaving the target handle untouched. -/
def assignH (cp : α → Except ε α) (fuel : Nat) (s : Store α) (same : Bool)
    (q other : Handle) : OpOut ε α :=
  if same then .ok s q
  else
    match cloneH cp fuel s other.root with
    | .ub => .ub
    | .thr s' e => .thr s' q e
    | .ok s' nr =>
      match destroyH fuel s' q.root with
      | none => .ub
      | some s'' => .ok s'' ⟨nr, other.cnt⟩

/-- Read the tree rooted at a link out of the store as a pure `Node`
value (values and stored ranks); `none` on a dangling link or when the
fuel bound is hit. -/
def readTree : Nat → Store α → Option Addr → Option (Node α)
  | _, _, none => some .nil
  | 0, _, some _ => none
  | fuel + 1, s, some a => do
    let c ← s.get a
    let l ← readTree fuel s c.left
    let r ← readTree fuel s c.right
    some (.node c.val l r c.dist)

/-- The addresses of the tree rooted at a link. -/
def addrsOf : Nat → Store α → Option Addr → Option (List Addr)
  | _, _, none => some []
  | 0, _, some _ => none
  | fuel + 1, s, some a => do
    let c ← s.get a
    let l ← addrsOf fuel s c.left
    let r ← addrsOf fuel s c.right
    some (a :: (l ++ r))

/-- How the store after a (possibly failed) clone relates to the store
before it: no old cell was touched, and every cell the clone allocated
(all of them at fresh addresses) is still allocated. -/
def CloneExt (s s' : Store α) : Prop :=
  s.cells.length ≤ s'.cells.length ∧
  (∀ a, a < s.cells.length → s'.get a = s.get a) ∧
  (∀ a, s.cells.length ≤ a → a < s'.cells.length → s'.alive a = true)

def cmpThrow : Nat → Nat → Except Unit Bool := fun _ _ => .error ()

def sPush : Store Nat := ⟨[some ⟨5, none, none, 1⟩]⟩

def sPop : Store Nat := ⟨[some ⟨9, some 1, some 2, 1⟩, some ⟨4, none, none, 1⟩, some ⟨3, none, none, 1⟩]⟩

def sMerge : Store Nat := ⟨[some ⟨5, none, none, 1⟩, some ⟨6, none, none, 1⟩]⟩

def cpThrow2 : Nat → Except Unit Nat := fun v => if v = 2 then .error () else .ok v

def cpId : Nat → Except Unit Nat := fun v => .ok v

def sClone : Store Nat := ⟨[some ⟨3, some 1, none, 1⟩, some ⟨2, none, none, 1⟩]⟩

def sCloneLeak : Store Nat := ⟨[some ⟨3, some 1, none, 1⟩, some ⟨2, none, none, 1⟩, some ⟨3, none, none, 1⟩]⟩

def sCloneOk : Store Nat :=
  ⟨[some ⟨3, some 1, none, 1⟩, some ⟨2, none, none, 1⟩,
    some ⟨3, some 3, none, 1⟩, some ⟨2, none, none, 1⟩]⟩

def qW : PQ Nat := (emptyPQ.push ltNat 5).push ltNat 3

def oW : PQ Nat := (emptyPQ.push ltNat 10).push ltNat 2

theorem size_toMultiset (t : Node α) : t.toMultiset.card = t.size := by
  induction t with
  | nil => simp [Node.toMultiset, Node.size]
  | node v l r d ihl ihr => simp [Node.toMultiset, Node.size, ihl, ihr]; omega

theorem meld_toMultiset (lt : α → α → Bool) (a b : Node α) :
    (meld lt a b).toMultiset = a.toMultiset + b.toMultiset := by
  induction a, b using meld.induct lt with
  | case1 b => simp [meld, Node.toMultiset]
  | case2 av al ar ad => simp [meld, Node.toMultiset]
  | case3 av al ar ad bv bl br bd hlt nr hp ih =>
      rw [meld]
      simp only [hlt, if_true, if_pos hp, Node.toMultiset, ih]
      simp only [← Multiset.singleton_add]
      abel
  | case4 av al ar ad bv bl br bd hlt nr hp ih =>
      rw [meld]
      simp only [hlt, if_true, if_neg hp, Node.toMultiset, ih]
      simp only [← Multiset.singleton_add]
      abel
  | case5 av al ar ad bv bl br bd hlt nr hp ih =>
      rw [meld]
      simp only [Bool.not_eq_true] at hlt
      simp only [hlt, if_false, if_pos hp, Node.toMultiset, ih]
      simp only [← Multiset.singleton_add]
      abel
  | case6 av al ar ad bv bl br bd hlt nr hp ih =>
      rw [meld]
      simp only [Bool.not_eq_true] at hlt
      simp only [hlt, if_false, if_neg hp, Node.toMultiset, ih]
      simp only [← Multiset.singleton_add]
      abel

theorem meld_size (lt : α → α → Bool) (a b : Node α) :
    (meld lt a b).size = a.size + b.size := by
  rw [← size_toMultiset, meld_toMultiset, Multiset.card_add, size_toMultiset, size_toMultiset]

theorem meld_heapOrd (lt : α → α → Bool)
    (hasym : ∀ x y : α, lt x y = true → lt y x = false) :
    ∀ a b : Node α, heapOrdB lt a = true → heapOrdB lt b = true →
      heapOrdB lt (meld lt a b) = true ∧
        (∀ v : α, rootLE lt v a = true → rootLE lt v b = true →
          rootLE lt v (meld lt a b) = true) := by
  intro a b
  induction a, b using meld.induct lt with
  | case1 b =>
      intro _ hb
      refine ⟨by simpa [meld] using hb, ?_⟩
      intro v _ hv; simpa [meld] using hv
  | case2 av al ar ad =>
      intro ha _
      refine ⟨by simpa [meld] using ha, ?_⟩
      intro v hv _; simpa [meld] using hv
  | case3 av al ar ad bv bl br bd hlt nr hp ih =>
      intro ha hb
      rw [meld]
      simp only [hlt, if_true, if_pos hp]
      simp only [heapOrdB, Bool.and_eq_true] at ha hb
      have haN : heapOrdB lt (Node.node av al ar ad) = true := by
        simp [heapOrdB, ha.1.1.1, ha.1.1.2, ha.1.2, ha.2]
      obtain ⟨hnr, hroot⟩ := ih hb.2 haN
      have hbv : rootLE lt bv (meld lt br (Node.node av al ar ad)) = true := by
        apply hroot
        · exact hb.1.1.2
        · simp [rootLE, hasym _ _ hlt]
      constructor
      · simp [heapOrdB, hbv, hb.1.1.1, hnr, hb.1.2]
      · intro v hva hvb
        simp only [rootLE] at hvb ⊢
        exact hvb
  | case4 av al ar ad bv bl br bd hlt nr hp ih =>
      intro ha hb
      rw [meld]
      simp only [hlt, if_true, if_neg hp]
      simp only [heapOrdB, Bool.and_eq_true] at ha hb
      have haN : heapOrdB lt (Node.node av al ar ad) = true := by
        simp [heapOrdB, ha.1.1.1, ha.1.1.2, ha.1.2, ha.2]
      obtain ⟨hnr, hroot⟩ := ih hb.2 haN
      have hbv : rootLE lt bv (meld lt br (Node.node av al ar ad)) = true := by
        apply hroot
        · exact hb.1.1.2
        · simp [rootLE, hasym _ _ hlt]
      constructor
      · simp [heapOrdB, hbv, hb.1.1.1, hnr, hb.1.2]
      · intro v hva hvb
        simp only [rootLE] at hvb ⊢
        exact hvb
  | case5 av al ar ad bv bl br bd hlt nr hp ih =>
      intro ha hb
      rw [meld]
      simp only [Bool.not_eq_true] at hlt
      simp only [hlt, if_false, if_pos hp]
      simp only [heapOrdB, Bool.and_eq_true] at ha hb
      have hbN : heapOrdB lt (Node.node bv bl br bd) = true := by
        simp [heapOrdB, hb.1.1.1, hb.1.1.2, hb.1.2, hb.2]
      obtain ⟨hnr, hroot⟩ := ih ha.2 hbN
      have hav : rootLE lt av (meld lt ar (Node.node bv bl br bd)) = true := by
        apply hroot
        · exact ha.1.1.2
        · simp [rootLE, hlt]
      constructor
      · simp [heapOrdB, hav, ha.1.1.1, hnr, ha.1.2]
      · intro v hva hvb
        simp only [rootLE] at hva ⊢
        exact hva
  | case6 av al ar ad bv bl br bd hlt nr hp ih =>
      intro ha hb
      rw [meld]
      simp only [Bool.not_eq_true] at hlt
      simp only [hlt, if_false, if_neg hp]
      simp only [heapOrdB, Bool.and_eq_true] at ha hb
      have hbN : heapOrdB lt (Node.node bv bl br bd) = true := by
        simp [heapOrdB, hb.1.1.1, hb.1.1.2, hb.1.2, hb.2]
      obtain ⟨hnr, hroot⟩ := ih ha.2 hbN
      have hav : rootLE lt av (meld lt ar (Node.node bv bl br bd)) = true := by
        apply hroot
        · exact ha.1.1.2
        · simp [rootLE, hlt]
      constructor
      · simp [heapOrdB, hav, ha.1.1.1, hnr, ha.1.2]
      · intro v hva hvb
        simp only [rootLE] at hva ⊢
        exact hva

theorem meld_leftist (lt : α → α → Bool) :
    ∀ a b : Node α, leftistOkB a = true → leftistOkB b = true →
      leftistOkB (meld lt a b) = true := by
  intro a b
  induction a, b using meld.induct lt with
  | case1 b => intro _ hb; simpa [meld] using hb
  | case2 av al ar ad => intro ha _; simpa [meld] using ha
  | case3 av al ar ad bv bl br bd hlt nr hp ih =>
      intro ha hb
      rw [meld]
      simp only [hlt, if_true, if_pos hp]
      simp only [leftistOkB, Bool.and_eq_true, decide_eq_true_eq] at ha hb ⊢
      have haN : leftistOkB (Node.node av al ar ad) = true := by
        simp only [leftistOkB, Bool.and_eq_true, decide_eq_true_eq]
        exact ha
      exact ⟨⟨⟨le_of_lt hp, trivial⟩, ih hb.2 haN⟩, hb.1.2⟩
  | case4 av al ar ad bv bl br bd hlt nr hp ih =>
      intro ha hb
      rw [meld]
      simp only [hlt, if_true, if_neg hp]
      simp only [leftistOkB, Bool.and_eq_true, decide_eq_true_eq] at ha hb ⊢
      have haN : leftistOkB (Node.node av al ar ad) = true := by
        simp only [leftistOkB, Bool.and_eq_true, decide_eq_true_eq]
        exact ha
      exact ⟨⟨⟨le_of_not_lt hp, trivial⟩, hb.1.2⟩, ih hb.2 haN⟩
  | case5 av al ar ad bv bl br bd hlt nr hp ih =>
      intro ha hb
      rw [meld]
      simp only [Bool.not_eq_true] at hlt
      simp only [hlt, if_false, if_pos hp]
      simp only [leftistOkB, Bool.and_eq_true, decide_eq_true_eq] at ha hb ⊢
      have hbN : leftistOkB (Node.node bv bl br bd) = true := by
        simp only [leftistOkB, Bool.and_eq_true, decide_eq_true_eq]
        exact hb
      exact ⟨⟨⟨le_of_lt hp, trivial⟩, ih ha.2 hbN⟩, ha.1.2⟩
  | case6 av al ar ad bv bl br bd hlt nr hp ih =>
      intro ha hb
      rw [meld]
      simp only [Bool.not_eq_true] at hlt
      simp only [hlt, if_false, if_neg hp]
      simp only [leftistOkB, Bool.and_eq_true, decide_eq_true_eq] at ha hb ⊢
      have hbN : leftistOkB (Node.node bv bl br bd) = true := by
        simp only [leftistOkB, Bool.and_eq_true, decide_eq_true_eq]
        exact hb
      exact ⟨⟨⟨le_of_not_lt hp, trivial⟩, ha.1.2⟩, ih ha.2 hbN⟩

theorem cloneP_eq (t : Node α) : cloneP t = t := by
  induction t with
  | nil => rfl
  | node v l r d ihl ihr => simp [cloneP, ihl, ihr]

theorem heapOrd_below (lt : α → α → Bool)
    (htrans : ∀ x y z : α, lt x y = false → lt y z = false → lt x z = false) :
    ∀ t : Node α, heapOrdB lt t = true → ∀ v : α, rootLE lt v t = true →
      ∀ x ∈ t.toMultiset, lt v x = false := by
  intro t
  induction t with
  | nil => intro _ v _ x hx; simp [Node.toMultiset] at hx
  | node w l r d ihl ihr =>
      intro ht v hv x hx
      simp only [heapOrdB, Bool.and_eq_true] at ht
      simp only [rootLE, Bool.not_eq_true'] at hv
      simp only [Node.toMultiset, Multiset.mem_cons, Multiset.mem_add] at hx
      rcases hx with rfl | hx | hx
      · exact hv
      · have := ihl ht.1.2 w ht.1.1.1 x hx
        exact htrans _ _ _ hv this
      · have := ihr ht.2 w ht.1.1.2 x hx
        exact htrans _ _ _ hv this

theorem heapOrd_root_max (lt : α → α → Bool)
    (htrans : ∀ x y z : α, lt x y = false → lt y z = false → lt x z = false)
    (v : α) (l r : Node α) (d : Int)
    (ht : heapOrdB lt (Node.node v l r d) = true) :
    ∀ x ∈ (Node.node v l r d).toMultiset, x = v ∨ lt v x = false := by
  intro x hx
  simp only [Node.toMultiset, Multiset.mem_cons, Multiset.mem_add] at hx
  simp only [heapOrdB, Bool.and_eq_true] at ht
  rcases hx with rfl | hx | hx
  · exact Or.inl rfl
  · exact Or.inr (heapOrd_below lt htrans l ht.1.2 v ht.1.1.1 x hx)
  · exact Or.inr (heapOrd_below lt htrans r ht.2 v ht.1.1.2 x hx)

theorem leftistOkB_singleton (e : α) : leftistOkB (Node.node e .nil .nil 1) = true := by
  simp [leftistOkB, npl]

theorem heapOrdB_singleton (lt : α → α → Bool) (e : α) :
    heapOrdB lt (Node.node e .nil .nil 1) = true := by
  simp [heapOrdB, rootLE]

theorem popF_some {lt : α → α → Bool} {q q' : PQ α} (h : q.popF lt = some q') :
    ∃ v l r d, q.root = Node.node v l r d ∧ q.cnt ≠ 0 ∧
      q' = ⟨meld lt l r, q.cnt - 1⟩ := by
  unfold PQ.popF PQ.popE at h
  by_cases hc : q.cnt = 0
  · simp [hc] at h
  · simp only [hc, if_false] at h
    cases hr : q.root with
    | nil => rw [hr] at h; simp at h
    | node v l r d =>
        rw [hr] at h
        simp only [Except.ok.injEq, Option.some.injEq] at h
        exact ⟨v, l, r, d, rfl, hc, h.symm⟩

theorem copy_eq (q : PQ α) : q.copy = q := by
  cases q with
  | mk root cnt => simp [PQ.copy, cloneP_eq]

theorem Reachable_struct {lt : α → α → Bool} {q : PQ α} (h : Reachable lt q) :
    leftistOkB q.root = true ∧ q.cnt = q.root.size := by
  induction h with
  | empty => simp [emptyPQ, leftistOkB, Node.size]
  | push q e _ ih =>
      constructor
      · exact meld_leftist lt q.root _ ih.1 (leftistOkB_singleton e)
      · simp [PQ.push, meld_size, Node.size, ih.2]
  | pop q q' _ hpop ih =>
      obtain ⟨v, l, r, d, hroot, hc, hq'⟩ := popF_some hpop
      rw [hroot] at ih
      simp only [leftistOkB, Bool.and_eq_true] at ih
      subst hq'
      constructor
      · exact meld_leftist lt l r ih.1.1.2 ih.1.2
      · simp only [meld_size]
        have := ih.2
        simp only [Node.size] at this
        omega
  | mergeL q o _ _ ihq iho =>
      constructor
      · exact meld_leftist lt q.root o.root ihq.1 iho.1
      · simp [PQ.mergeW, meld_size, ihq.2, iho.2]
  | mergeR q o _ _ ihq iho => simp [PQ.mergeW, leftistOkB, Node.size]
  | copy q _ ih => rw [copy_eq]; exact ih
  | assign q o _ ih => rw [copy_eq]; exact ih

theorem Reachable_heapOrd {lt : α → α → Bool}
    (hasym : ∀ x y : α, lt x y = true → lt y x = false)
    {q : PQ α} (h : Reachable lt q) : heapOrdB lt q.root = true := by
  induction h with
  | empty => simp [emptyPQ, heapOrdB]
  | push q e _ ih =>
      exact (meld_heapOrd lt hasym q.root _ ih (heapOrdB_singleton lt e)).1
  | pop q q' _ hpop ih =>
      obtain ⟨v, l, r, d, hroot, hc, hq'⟩ := popF_some hpop
      rw [hroot] at ih
      simp only [heapOrdB, Bool.and_eq_true] at ih
      subst hq'
      exact (meld_heapOrd lt hasym l r ih.1.2 ih.2).1
  | mergeL q o _ _ ihq iho =>
      exact (meld_heapOrd lt hasym q.root o.root ihq iho).1
  | mergeR q o _ _ ihq iho => simp [PQ.mergeW, heapOrdB]
  | copy q _ ih => rw [copy_eq]; exact ih
  | assign q o _ ih => rw [copy_eq]; exact ih

theorem top_node {q : PQ α} {v : α} {l r : Node α} {d : Int}
    (hr : q.root = Node.node v l r d) (hc : q.cnt ≠ 0) : q.top = .ok (some v) := by
  simp [PQ.top, hc, hr]

theorem ltNat_asym : ∀ x y : Nat, ltNat x y = true → ltNat y x = false := by
  intro x y h; simp [ltNat] at h ⊢; omega

theorem ltNat_trans : ∀ x y z : Nat, ltNat x y = false → ltNat y z = false → ltNat x z = false := by
  intro x y z h1 h2; simp [ltNat] at h1 h2 ⊢; omega

theorem push_toMultiset (lt : α → α → Bool) (q : PQ α) (e : α) :
    (q.push lt e).root.toMultiset = q.root.toMultiset + {e} := by
  simp [PQ.push, meld_toMultiset, Node.toMultiset]

theorem popList_spec (lt : α → α → Bool)
    (hasym : ∀ x y : α, lt x y = true → lt y x = false)
    (htrans : ∀ x y z : α, lt x y = false → lt y z = false → lt x z = false) :
    ∀ (n : Nat) (q : PQ α), Reachable lt q → q.cnt = n →
      List.Chain' (fun a b => lt a b = false) (popList lt n q) ∧
        ((popList lt n q : List α) : Multiset α) = q.root.toMultiset := by
  intro n
  induction n with
  | zero =>
      intro q hq hc
      have hs := (Reachable_struct hq).2
      rw [hc] at hs
      cases hr : q.root with
      | node v l r d => rw [hr] at hs; simp [Node.size] at hs; omega
      | nil => simp [popList, hr, Node.toMultiset]
  | succ n ih =>
      intro q hq hc
      have hs := (Reachable_struct hq).2
      have hh := Reachable_heapOrd hasym hq
      cases hr : q.root with
      | nil => rw [hr, hc] at hs; simp [Node.size] at hs
      | node v l r d =>
          have hc0 : q.cnt ≠ 0 := by omega
          have htop : q.top = .ok (some v) := top_node hr hc0
          have hpop : q.popF lt = some ⟨meld lt l r, q.cnt - 1⟩ := by
            simp [PQ.popF, PQ.popE, hc0, hr]
          have hq' : Reachable lt (⟨meld lt l r, q.cnt - 1⟩ : PQ α) :=
            Reachable.pop q _ hq hpop
          have hcnt' : (⟨meld lt l r, q.cnt - 1⟩ : PQ α).cnt = n := by simp [hc]
          obtain ⟨hchain, hms⟩ := ih _ hq' hcnt'
          have hlist : popList lt (n + 1) q = v :: popList lt n ⟨meld lt l r, q.cnt - 1⟩ := by
            rw [popList, htop, hpop]
          rw [hr] at hh
          simp only [heapOrdB, Bool.and_eq_true] at hh
          constructor
          · rw [hlist]
            refine List.chain'_cons'.mpr ⟨?_, hchain⟩
            intro w hw
            have hwmem : w ∈ (popList lt n (⟨meld lt l r, q.cnt - 1⟩ : PQ α) : List α) :=
              List.mem_of_mem_head? hw
            have : w ∈ (⟨meld lt l r, q.cnt - 1⟩ : PQ α).root.toMultiset := by
              rw [← hms]; exact Multiset.mem_coe.mpr hwmem
            simp only [meld_toMultiset, Multiset.mem_add] at this
            rcases this with h | h
            · exact heapOrd_below lt htrans l hh.1.2 v hh.1.1.1 w h
            · exact heapOrd_below lt htrans r hh.2 v hh.1.1.2 w h
          · rw [hlist]
            have : ((v :: popList lt n (⟨meld lt l r, q.cnt - 1⟩ : PQ α) : List α) : Multiset α)
                = v ::ₘ (popList lt n (⟨meld lt l r, q.cnt - 1⟩ : PQ α) : Multiset α) := by
              simp
            rw [this, hms]
            simp [Node.toMultiset, meld_toMultiset]

theorem pushAll_reachable (lt : α → α → Bool) :
    ∀ (es : List α) (q : PQ α), Reachable lt q → Reachable lt (pushAll lt q es) := by
  intro es
  induction es with
  | nil => intro q hq; exact hq
  | cons e es ih =>
      intro q hq
      exact ih _ (Reachable.push q e hq)

theorem pushAll_toMultiset (lt : α → α → Bool) :
    ∀ (es : List α) (q : PQ α),
      (pushAll lt q es).root.toMultiset = q.root.toMultiset + (es : Multiset α) := by
  intro es
  induction es with
  | nil => intro q; simp [pushAll]
  | cons e es ih =>
      intro q
      have : pushAll lt q (e :: es) = pushAll lt (q.push lt e) es := rfl
      rw [this, ih, push_toMultiset]
      simp only [← Multiset.singleton_add, ← Multiset.cons_coe]
      abel

theorem reachable_top_max (lt : α → α → Bool)
    (hasym : ∀ x y : α, lt x y = true → lt y x = false)
    (htrans : ∀ x y z : α, lt x y = false → lt y z = false → lt x z = false)
    (q : PQ α) (hq : Reachable lt q) (hpos : 0 < q.sizeQ) :
    ∃ m, q.top = .ok (some m) ∧
      ∀ x ∈ q.root.toMultiset, ¬(lt x m = false ∧ lt m x = true) := by
  have hs := (Reachable_struct hq).2
  have hh := Reachable_heapOrd hasym hq
  simp only [PQ.sizeQ] at hpos
  cases hr : q.root with
  | nil => rw [hr] at hs; simp [Node.size] at hs; omega
  | node v l r d =>
      refine ⟨v, top_node hr (by omega), ?_⟩
      rw [hr] at hh
      intro x hx
      rcases heapOrd_root_max lt htrans v l r d hh x hx with rfl | hle
      · rintro ⟨h1, h2⟩; rw [h1] at h2; cases h2
      · rintro ⟨h1, h2⟩; rw [hle] at h2; cases h2

theorem meldCont_thr {ε : Type} {m : MOut ε α} {w : Addr} {s' : Store α} {e : ε}
    (h : meldCont m w = .thr s' e) : ∃ e2, m = MOut.thr s' e2 := by
  cases m with
  | ub => simp [meldCont] at h
  | thr s2 e2 => rw [meldCont] at h; cases h; exact ⟨_, rfl⟩
  | ok s2 nr =>
      rw [meldCont] at h
      split at h
      · cases h
      · cases h

theorem meldH_thr {ε : Type} {cmp : α → α → Except ε Bool} :
    ∀ {fuel : Nat} {s s' : Store α} {a b : Option Addr} {e : ε},
      meldH cmp fuel s a b = .thr s' e → s' = s := by
  intro fuel
  induction fuel with
  | zero => intro s s' a b e h; simp [meldH] at h
  | succ fuel ih =>
      intro s s' a b e h
      cases a with
      | none => simp [meldH] at h
      | some a =>
        cases b with
        | none => simp [meldH] at h
        | some b =>
          rw [meldH] at h
          repeat' split at h
          all_goals first
            | (cases h; rfl)
            | cases h
            | (obtain ⟨e2, hm⟩ := meldCont_thr h; exact ih hm)

theorem set_append_len (xs : List β) (x y : β) :
    (xs ++ [x]).set xs.length y = xs ++ [y] := by
  induction xs with
  | nil => rfl
  | cons z zs ih => simp [List.set, ih]

theorem pushH_thr {ε : Type} {cmp : α → α → Except ε Bool} {fuel : Nat}
    {s s' : Store α} {q q' : Handle} {e : α} {ex : ε}
    (h : pushH cmp fuel s q e = .thr s' q' ex) :
    q' = q ∧ s'.cells = s.cells ++ [none] := by
  rw [pushH] at h
  repeat' split at h
  all_goals first
    | (cases h
       rename_i hm
       have hs2 := meldH_thr hm
       subst hs2
       refine ⟨rfl, ?_⟩
       simp [Store.free, Store.alloc, set_append_len])
    | cases h

theorem popH_thr {ε : Type} {cmp : α → α → Except ε Bool} {fuel : Nat}
    {s s' : Store α} {q q' : Handle} {ex : ε}
    (h : popH cmp fuel s q = .thr s' q' ex) :
    q' = q ∧ s' = s := by
  rw [popH] at h
  split at h
  · cases h
  · repeat' split at h
    all_goals first
      | (cases h; rename_i hm; exact ⟨rfl, meldH_thr hm⟩)
      | cases h

theorem mergeH_thr {ε : Type} {cmp : α → α → Except ε Bool} {fuel : Nat}
    {s s' : Store α} {same : Bool} {q o q' o' : Handle} {ex : ε}
    (h : mergeH cmp fuel s same q o = .thr s' q' o' ex) :
    q' = q ∧ o' = o ∧ s' = s := by
  rw [mergeH] at h
  split at h
  · cases h
  · repeat' split at h
    all_goals first
      | (cases h; rename_i hm; exact ⟨rfl, rfl, meldH_thr hm⟩)
      | cases h

theorem getD_append_none {β : Type} (l : List (Option β)) (i : Nat) :
    (l ++ [none]).getD i none = l.getD i none := by
  induction l generalizing i with
  | nil => cases i <;> rfl
  | cons x xs ih =>
      cases i with
      | zero => rfl
      | succ i => simpa using ih i

theorem get_append_none (s : Store α) (a : Addr) :
    (⟨s.cells ++ [none]⟩ : Store α).get a = s.get a := by
  unfold Store.get
  exact getD_append_none s.cells a

theorem readTree_congr (s s' : Store α) (hg : ∀ a, s'.get a = s.get a) :
    ∀ (fuel : Nat) (x : Option Addr), readTree fuel s' x = readTree fuel s x := by
  intro fuel
  induction fuel with
  | zero => intro x; cases x <;> rfl
  | succ fuel ih =>
      intro x
      cases x with
      | none => rfl
      | some a => rw [readTree, readTree, hg a]; cases s.get a <;> simp [ih]

theorem topH_congr (s s' : Store α) (hg : ∀ a, s'.get a = s.get a) (q : Handle) :
    topH s' q = topH s q := by
  by_cases hc : q.cnt = 0
  · simp [topH, hc]
  · cases hr : q.root with
    | none => simp [topH, hc, hr]
    | some r => simp [topH, hc, hr, hg r]

theorem alive_congr (s s' : Store α) (hg : ∀ a, s'.get a = s.get a) (a : Addr) :
    s'.alive a = s.alive a := by
  unfold Store.alive; rw [hg a]

theorem getD_set_ne {β : Type} (l : List β) (i j : Nat) (x d : β) (h : i ≠ j) :
    (l.set i x).getD j d = l.getD j d := by
  induction l generalizing i j with
  | nil => rfl
  | cons y ys ih =>
      cases i with
      | zero =>
          cases j with
          | zero => exact absurd rfl h
          | succ j => rfl
      | succ i =>
          cases j with
          | zero => rfl
          | succ j => simpa using ih i j (by omega)

theorem getD_set_self {β : Type} (l : List β) (i : Nat) (x d : β) (h : i < l.length) :
    (l.set i x).getD i d = x := by
  induction l generalizing i with
  | nil => simp at h
  | cons y ys ih =>
      cases i with
      | zero => rfl
      | succ i => simpa using ih i (by simpa using h)

theorem getD_default {β : Type} (l : List β) (i : Nat) (d : β) (h : l.length ≤ i) :
    l.getD i d = d := by
  induction l generalizing i with
  | nil => cases i <;> rfl
  | cons y ys ih =>
      cases i with
      | zero => simp at h
      | succ i => simpa using ih i (by simpa using h)

theorem getD_append_self {β : Type} (l : List β) (x d : β) :
    (l ++ [x]).getD l.length d = x := by
  induction l with
  | nil => rfl
  | cons y ys ih => simp only [List.cons_append, List.length_cons, List.getD_cons_succ]; exact ih

theorem getD_append_one_ne {β : Type} (l : List β) (x d : β) (a : Nat) (h : a ≠ l.length) :
    (l ++ [x]).getD a d = l.getD a d := by
  induction l generalizing a with
  | nil =>
      cases a with
      | zero => exact absurd rfl h
      | succ a => cases a <;> rfl
  | cons y ys ih =>
      cases a with
      | zero => rfl
      | succ a => simpa using ih a (by simpa using h)

theorem get_set_ne (s : Store α) (a b : Addr) (c : Cell α) (h : a ≠ b) :
    (s.set a c).get b = s.get b := getD_set_ne _ _ _ _ _ h

theorem get_set_self (s : Store α) (a : Addr) (c : Cell α) (h : a < s.cells.length) :
    (s.set a c).get a = some c := getD_set_self _ _ _ _ h

theorem length_set_store (s : Store α) (a : Addr) (c : Cell α) :
    (s.set a c).cells.length = s.cells.length := by
  simp [Store.set]

theorem CloneExt.refl (s : Store α) : CloneExt s s :=
  ⟨le_refl _, fun _ _ => rfl, fun a h1 h2 => absurd h2 (by omega)⟩

theorem CloneExt.trans {s1 s2 s3 : Store α} (h12 : CloneExt s1 s2) (h23 : CloneExt s2 s3) :
    CloneExt s1 s3 := by
  obtain ⟨hl12, hg12, ha12⟩ := h12
  obtain ⟨hl23, hg23, ha23⟩ := h23
  refine ⟨le_trans hl12 hl23, ?_, ?_⟩
  · intro a ha
    rw [hg23 a (by omega), hg12 a ha]
  · intro a h1 h2
    by_cases hm : a < s2.cells.length
    · have := ha12 a h1 hm
      unfold Store.alive at this ⊢
      rw [hg23 a hm]
      exact this
    · exact ha23 a (by omega) h2

theorem CloneExt.alloc (s : Store α) (c : Cell α) : CloneExt s (s.alloc c).2 := by
  refine ⟨by simp [Store.alloc], ?_, ?_⟩
  · intro a ha
    exact getD_append_one_ne _ _ _ _ (by omega)
  · intro a h1 h2
    simp only [Store.alloc] at h1 h2 ⊢
    simp only [List.length_append, List.length_cons, List.length_nil] at h2
    have : a = s.cells.length := by omega
    subst this
    unfold Store.alive Store.get
    rw [getD_append_self]
    rfl

theorem CloneExt.set_new {s s' : Store α} (h : CloneExt s s') (a : Addr) (c : Cell α)
    (ha : s.cells.length ≤ a) : CloneExt s (s'.set a c) := by
  obtain ⟨hl, hg, hal⟩ := h
  refine ⟨by rw [length_set_store]; exact hl, ?_, ?_⟩
  · intro b hb
    have hlt : b < a := by omega
    rw [get_set_ne s' a b c (Nat.ne_of_gt hlt), hg b hb]
  · intro b h1 h2
    rw [length_set_store] at h2
    by_cases hab : a = b
    · subst hab
      unfold Store.alive
      rw [get_set_self _ _ _ h2]
      rfl
    · unfold Store.alive
      rw [get_set_ne _ _ _ _ hab]
      exact hal b h1 h2

theorem cloneH_ext {ε : Type} {cp : α → Except ε α} :
    ∀ (fuel : Nat) (s : Store α) (x : Option Addr) (s' : Store α),
      ((∃ e, cloneH cp fuel s x = .thr s' e) ∨ (∃ r, cloneH cp fuel s x = .ok s' r)) →
        CloneExt s s' := by
  intro fuel
  induction fuel with
  | zero =>
      intro s x s' h
      rcases h with ⟨e, h⟩ | ⟨r, h⟩ <;> simp [cloneH] at h
  | succ fuel ih =>
      intro s x s' hout
      cases x with
      | none =>
          rcases hout with ⟨e, h⟩ | ⟨r, h⟩
          · simp [cloneH] at h
          · rw [cloneH] at h; cases h; exact CloneExt.refl s
      | some xa =>
          have h : ∀ R, cloneH cp (fuel + 1) s (some xa) = R → cloneH cp (fuel + 1) s (some xa) = R :=
            fun _ h => h
          cases hg : s.get xa with
          | none =>
              rcases hout with ⟨e, h⟩ | ⟨r, h⟩ <;>
                (rw [cloneH] at h; simp only [hg] at h; cases h)
          | some c =>
              cases hcp : cp c.val with
              | error e2 =>
                  rcases hout with ⟨e, h⟩ | ⟨r, h⟩ <;>
                    (rw [cloneH] at h; simp only [hg, hcp] at h)
                  · cases h; exact CloneExt.refl s
                  · cases h
              | ok v =>
                  have hna : (s.alloc ⟨v, none, none, 1⟩).1 = s.cells.length := rfl
                  have hext1 : CloneExt s
                      ((s.alloc ⟨v, none, none, 1⟩).2.set (s.alloc ⟨v, none, none, 1⟩).1
                        ⟨v, none, none, c.dist⟩) :=
                    (CloneExt.alloc s _).set_new _ _ (by rw [hna])
                  have hlen1 : s.cells.length ≤
                      ((s.alloc ⟨v, none, none, 1⟩).2.set (s.alloc ⟨v, none, none, 1⟩).1
                        ⟨v, none, none, c.dist⟩).cells.length := hext1.1
                  cases hm1 : cloneH cp fuel
                      ((s.alloc ⟨v, none, none, 1⟩).2.set (s.alloc ⟨v, none, none, 1⟩).1
                        ⟨v, none, none, c.dist⟩) c.left with
                  | ub =>
                      rcases hout with ⟨e, h⟩ | ⟨r, h⟩ <;>
                        (rw [cloneH] at h; simp only [hg, hcp, hm1] at h) <;> cases h
                  | thr s2 e0 =>
                      rcases hout with ⟨e, h⟩ | ⟨r, h⟩ <;>
                        (rw [cloneH] at h; simp only [hg, hcp, hm1] at h)
                      · cases h
                        exact hext1.trans (ih _ _ _ (Or.inl ⟨e0, hm1⟩))
                      · cases h
                  | ok s2 nl =>
                      have hext2 : CloneExt s s2 :=
                        hext1.trans (ih _ _ _ (Or.inr ⟨nl, hm1⟩))
                      cases hg2 : s2.get (s.alloc ⟨v, none, none, 1⟩).1 with
                      | none =>
                          rcases hout with ⟨e, h⟩ | ⟨r, h⟩ <;>
                            (rw [cloneH] at h; simp only [hg, hcp, hm1, hg2] at h) <;> cases h
                      | some cna =>
                          have hext3 : CloneExt s
                              (s2.set (s.alloc ⟨v, none, none, 1⟩).1 { cna with left := nl }) :=
                            hext2.set_new _ _ (by rw [hna])
                          cases hm2 : cloneH cp fuel
                              (s2.set (s.alloc ⟨v, none, none, 1⟩).1 { cna with left := nl })
                              c.right with
                          | ub =>
                              rcases hout with ⟨e, h⟩ | ⟨r, h⟩ <;>
                                (rw [cloneH] at h; simp only [hg, hcp, hm1, hg2, hm2] at h) <;>
                                cases h
                          | thr s4 e0 =>
                              rcases hout with ⟨e, h⟩ | ⟨r, h⟩ <;>
                                (rw [cloneH] at h; simp only [hg, hcp, hm1, hg2, hm2] at h)
                              · cases h
                                exact hext3.trans (ih _ _ _ (Or.inl ⟨e0, hm2⟩))
                              · cases h
                          | ok s4 nr =>
                              have hext4 : CloneExt s s4 :=
                                hext3.trans (ih _ _ _ (Or.inr ⟨nr, hm2⟩))
                              cases hg3 : s4.get (s.alloc ⟨v, none, none, 1⟩).1 with
                              | none =>
                                  rcases hout with ⟨e, h⟩ | ⟨r, h⟩ <;>
                                    (rw [cloneH] at h;
                                     simp only [hg, hcp, hm1, hg2, hm2, hg3] at h) <;> cases h
                              | some cna2 =>
                                  rcases hout with ⟨e, h⟩ | ⟨r, h⟩ <;>
                                    (rw [cloneH] at h;
                                     simp only [hg, hcp, hm1, hg2, hm2, hg3] at h)
                                  · cases h
                                  · cases h
                                    exact hext4.set_new _ _ (by rw [hna])

theorem get_some_lt {s : Store α} {a : Addr} {c : Cell α} (h : s.get a = some c) :
    a < s.cells.length := by
  cases Nat.lt_or_ge a s.cells.length with
  | inl hlt => exact hlt
  | inr hge =>
      unfold Store.get at h
      rw [getD_default s.cells a none hge] at h
      cases h

theorem addrsOf_mem_get :
    ∀ {fuel : Nat} {s : Store α} {x : Option Addr} {L : List Addr},
      addrsOf fuel s x = some L → ∀ a ∈ L, ∃ c, s.get a = some c := by
  intro fuel
  induction fuel with
  | zero =>
      intro s x L h a ha
      cases x with
      | none => rw [addrsOf] at h; cases h; simp at ha
      | some xa => simp [addrsOf] at h
  | succ fuel ih =>
      intro s x L h a ha
      cases x with
      | none => rw [addrsOf] at h; cases h; simp at ha
      | some xa =>
          rw [addrsOf] at h
          cases hg : s.get xa with
          | none => rw [hg] at h; cases h
          | some c =>
              rw [hg] at h
              simp only [Option.bind_eq_bind, Option.some_bind, Option.bind_eq_some,
                Option.some.injEq] at h
              obtain ⟨Ll, hLl, Lr, hLr, hL⟩ := h
              subst hL
              rcases List.mem_cons.mp ha with rfl | hmem
              · exact ⟨c, hg⟩
              · rcases List.mem_append.mp hmem with hl | hr
                · exact ih hLl a hl
                · exact ih hLr a hr

theorem read_frame :
    ∀ {fuel : Nat} {s s' : Store α} {x : Option Addr} {L : List Addr},
      addrsOf fuel s x = some L → (∀ a ∈ L, s'.get a = s.get a) →
        readTree fuel s' x = readTree fuel s x ∧ addrsOf fuel s' x = some L := by
  intro fuel
  induction fuel with
  | zero =>
      intro s s' x L h hag
      cases x with
      | none => rw [addrsOf] at h; cases h; exact ⟨rfl, rfl⟩
      | some xa => simp [addrsOf] at h
  | succ fuel ih =>
      intro s s' x L h hag
      cases x with
      | none => rw [addrsOf] at h; cases h; exact ⟨rfl, rfl⟩
      | some xa =>
          rw [addrsOf] at h
          cases hg : s.get xa with
          | none => rw [hg] at h; cases h
          | some c =>
              rw [hg] at h
              simp only [Option.bind_eq_bind, Option.some_bind, Option.bind_eq_some,
                Option.some.injEq] at h
              obtain ⟨Ll, hLl, Lr, hLr, hL⟩ := h
              subst hL
              have hgx : s'.get xa = some c := by
                rw [hag xa (List.mem_cons_self _ _), hg]
              have hagl : ∀ a ∈ Ll, s'.get a = s.get a := fun a ha =>
                hag a (List.mem_cons_of_mem _ (List.mem_append_left _ ha))
              have hagr : ∀ a ∈ Lr, s'.get a = s.get a := fun a ha =>
                hag a (List.mem_cons_of_mem _ (List.mem_append_right _ ha))
              obtain ⟨hrl, hal⟩ := ih hLl hagl
              obtain ⟨hrr, har⟩ := ih hLr hagr
              constructor
              · rw [readTree, readTree, hg, hgx]
                simp only [Option.bind_eq_bind, Option.some_bind]
                rw [hrl, hrr]
              · rw [addrsOf, hgx]
                simp only [Option.bind_eq_bind, Option.some_bind]
                rw [hal, har]
                rfl

theorem readTree_addrsOf :
    ∀ {fuel : Nat} {s : Store α} {x : Option Addr} {t : Node α},
      readTree fuel s x = some t → ∃ L, addrsOf fuel s x = some L := by
  intro fuel
  induction fuel with
  | zero =>
      intro s x t h
      cases x with
      | none => exact ⟨[], rfl⟩
      | some xa => simp [readTree] at h
  | succ fuel ih =>
      intro s x t h
      cases x with
      | none => exact ⟨[], rfl⟩
      | some xa =>
          rw [readTree] at h
          cases hg : s.get xa with
          | none => rw [hg] at h; cases h
          | some c =>
              rw [hg] at h
              simp only [Option.bind_eq_bind, Option.some_bind, Option.bind_eq_some,
                Option.some.injEq] at h
              obtain ⟨tl, htl, tr, htr, hT⟩ := h
              obtain ⟨Ll, hLl⟩ := ih htl
              obtain ⟨Lr, hLr⟩ := ih htr
              refine ⟨xa :: (Ll ++ Lr), ?_⟩
              rw [addrsOf, hg]
              simp only [Option.bind_eq_bind, Option.some_bind]
              rw [hLl, hLr]
              rfl

theorem frame_of_cloneExt {s s' : Store α} (hext : CloneExt s s') {fuel : Nat}
    {x : Option Addr} {L : List Addr} (hL : addrsOf fuel s x = some L) :
    readTree fuel s' x = readTree fuel s x ∧ addrsOf fuel s' x = some L := by
  refine read_frame hL ?_
  intro a ha
  obtain ⟨c, hc⟩ := addrsOf_mem_get hL a ha
  exact hext.2.1 a (get_some_lt hc)

theorem frame_of_set_notin {s : Store α} (na : Addr) (c : Cell α) {fuel : Nat}
    {x : Option Addr} {L : List Addr} (hL : addrsOf fuel s x = some L)
    (hna : ∀ a ∈ L, a ≠ na) :
    readTree fuel (s.set na c) x = readTree fuel s x ∧
      addrsOf fuel (s.set na c) x = some L := by
  refine read_frame hL ?_
  intro a ha
  exact get_set_ne s na a c (Ne.symm (hna a ha))

theorem cloneH_ok_spec {ε : Type} {cp : α → Except ε α} (hcp : ∀ v, cp v = .ok v) :
    ∀ {fuel : Nat} {s s' : Store α} {x r : Option Addr} {t : Node α},
      cloneH cp fuel s x = .ok s' r → readTree fuel s x = some t →
        readTree fuel s' r = some t ∧
          ∃ L, addrsOf fuel s' r = some L ∧ ∀ a ∈ L, s.cells.length ≤ a := by
  intro fuel
  induction fuel with
  | zero =>
      intro s s' x r t hcl hrd
      cases x <;> rw [cloneH] at hcl <;> cases hcl
  | succ fuel ih =>
      intro s s' x r t hcl hrd
      cases x with
      | none =>
          rw [cloneH] at hcl
          cases hcl
          exact ⟨hrd, ⟨[], rfl, by simp⟩⟩
      | some xa =>
          rw [readTree] at hrd
          cases hg : s.get xa with
          | none => rw [hg] at hrd; cases hrd
          | some c =>
              rw [hg] at hrd
              simp only [Option.bind_eq_bind, Option.some_bind, Option.bind_eq_some,
                Option.some.injEq] at hrd
              obtain ⟨tl, htl, tr, htr, hT⟩ := hrd
              rw [cloneH] at hcl
              simp only [hg, hcp c.val, Store.alloc] at hcl
              generalize hS : (Store.set (⟨s.cells ++ [some ⟨c.val, none, none, 1⟩]⟩ : Store α)
                  s.cells.length ⟨c.val, none, none, c.dist⟩) = s1b at hcl
              have hlen1b : s1b.cells.length = s.cells.length + 1 := by
                rw [← hS, length_set_store]; simp
              have hext01 : CloneExt s s1b := by
                rw [← hS]
                exact (CloneExt.alloc s ⟨c.val, none, none, 1⟩).set_new _ _ (le_refl _)
              have hget1b : s1b.get s.cells.length = some ⟨c.val, none, none, c.dist⟩ := by
                rw [← hS]
                exact get_set_self _ _ _ (by simp)
              obtain ⟨Ll, hLl⟩ := readTree_addrsOf htl
              obtain ⟨Lr, hLr⟩ := readTree_addrsOf htr
              obtain ⟨hrd1bL, had1bL⟩ := frame_of_cloneExt hext01 hLl
              rw [htl] at hrd1bL
              cases hm1 : cloneH cp fuel s1b c.left with
              | ub => rw [hm1] at hcl; cases hcl
              | thr s2 e0 => rw [hm1] at hcl; cases hcl
              | ok s2 nl =>
                  rw [hm1] at hcl
                  have hext12 : CloneExt s1b s2 := cloneH_ext fuel s1b c.left s2 (Or.inr ⟨nl, hm1⟩)
                  have hlen2 : s1b.cells.length ≤ s2.cells.length := hext12.1
                  have hlt2 : s.cells.length < s1b.cells.length := by omega
                  have hget2 : s2.get s.cells.length = some ⟨c.val, none, none, c.dist⟩ := by
                    rw [hext12.2.1 s.cells.length hlt2]
                    exact hget1b
                  simp only [hget2] at hcl
                  obtain ⟨hrd2, Lnl, had2, hLnl⟩ := ih hm1 hrd1bL
                  have hLnl' : ∀ a ∈ Lnl, s.cells.length + 1 ≤ a := by
                    intro a ha; have := hLnl a ha; omega
                  generalize hS3 : Store.set s2 s.cells.length
                      ⟨c.val, nl, none, c.dist⟩ = s3 at hcl
                  have hlen3 : s3.cells.length = s2.cells.length := by
                    rw [← hS3, length_set_store]
                  have hext23 : CloneExt s s3 := by
                    rw [← hS3]
                    exact (hext01.trans hext12).set_new _ _ (le_refl _)
                  have hlt3 : s.cells.length < s3.cells.length := by omega
                  have hget3 : s3.get s.cells.length = some ⟨c.val, nl, none, c.dist⟩ := by
                    rw [← hS3]
                    have hlt2b : s.cells.length < s2.cells.length := by omega
                    exact get_set_self _ _ _ hlt2b
                  obtain ⟨hrd3nl, had3nl⟩ : readTree fuel s3 nl = some tl ∧
                      addrsOf fuel s3 nl = some Lnl := by
                    rw [← hS3]
                    have hfr := frame_of_set_notin s.cells.length
                      ⟨c.val, nl, none, c.dist⟩ had2
                      (fun a ha => by have := hLnl' a ha; exact Nat.ne_of_gt (by omega))
                    rw [hrd2] at hfr
                    exact hfr
                  obtain ⟨hrd3r, had3r⟩ := frame_of_cloneExt hext23 hLr
                  rw [htr] at hrd3r
                  cases hm2 : cloneH cp fuel s3 c.right with
                  | ub => rw [hm2] at hcl; cases hcl
                  | thr s4 e0 => rw [hm2] at hcl; cases hcl
                  | ok s4 nr =>
                      rw [hm2] at hcl
                      have hext34 : CloneExt s3 s4 :=
                        cloneH_ext fuel s3 c.right s4 (Or.inr ⟨nr, hm2⟩)
                      have hlen4 : s3.cells.length ≤ s4.cells.length := hext34.1
                      have hlt4 : s.cells.length < s3.cells.length := hlt3
                      have hget4 : s4.get s.cells.length =
                          some ⟨c.val, nl, none, c.dist⟩ := by
                        rw [hext34.2.1 s.cells.length hlt4]
                        exact hget3
                      simp only [hget4] at hcl
                      obtain ⟨hrd4, Lnr, had4, hLnr⟩ := ih hm2 hrd3r
                      have hLnr' : ∀ a ∈ Lnr, s.cells.length + 1 ≤ a := by
                        intro a ha; have := hLnr a ha; omega
                      obtain ⟨hrd4nl, had4nl⟩ := frame_of_cloneExt hext34 had3nl
                      rw [hrd3nl] at hrd4nl
                      cases hcl
                      have hlt5 : s.cells.length < s4.cells.length := by omega
                      have hgetF : (Store.set s4 s.cells.length
                          ⟨c.val, nl, nr, c.dist⟩).get s.cells.length =
                          some ⟨c.val, nl, nr, c.dist⟩ :=
                        get_set_self _ _ _ hlt5
                      obtain ⟨hrdFnl, hadFnl⟩ : readTree fuel (Store.set s4 s.cells.length
                          ⟨c.val, nl, nr, c.dist⟩) nl = some tl ∧
                          addrsOf fuel (Store.set s4 s.cells.length
                            ⟨c.val, nl, nr, c.dist⟩) nl = some Lnl := by
                        have hfr := frame_of_set_notin s.cells.length
                          ⟨c.val, nl, nr, c.dist⟩ had4nl
                          (fun a ha => by have := hLnl' a ha; exact Nat.ne_of_gt (by omega))
                        rw [hrd4nl] at hfr
                        exact hfr
                      obtain ⟨hrdFnr, hadFnr⟩ : readTree fuel (Store.set s4 s.cells.length
                          ⟨c.val, nl, nr, c.dist⟩) nr = some tr ∧
                          addrsOf fuel (Store.set s4 s.cells.length
                            ⟨c.val, nl, nr, c.dist⟩) nr = some Lnr := by
                        have hfr := frame_of_set_notin s.cells.length
                          ⟨c.val, nl, nr, c.dist⟩ had4
                          (fun a ha => by have := hLnr' a ha; exact Nat.ne_of_gt (by omega))
                        rw [hrd4] at hfr
                        exact hfr
                      constructor
                      · rw [readTree, hgetF]
                        simp only [Option.bind_eq_bind, Option.some_bind]
                        rw [hrdFnl, hrdFnr]
                        rw [← hT]
                        rfl
                      · refine ⟨s.cells.length :: (Lnl ++ Lnr), ?_, ?_⟩
                        · rw [addrsOf, hgetF]
                          simp only [Option.bind_eq_bind, Option.some_bind]
                          rw [hadFnl, hadFnr]
                          rfl
                        · intro a ha
                          rcases List.mem_cons.mp ha with rfl | hmem
                          · exact le_refl _
                          · rcases List.mem_append.mp hmem with h1 | h1
                            · have := hLnl' a h1; omega
                            · have := hLnr' a h1; omega

theorem get_free_ne (s : Store α) (a b : Addr) (h : a ≠ b) :
    (s.free a).get b = s.get b := getD_set_ne _ _ _ _ _ h

theorem get_free_self (s : Store α) (a : Addr) : (s.free a).get a = none := by
  cases Nat.lt_or_ge a s.cells.length with
  | inl hlt => exact getD_set_self _ _ _ _ hlt
  | inr hge =>
      unfold Store.free Store.get
      rw [List.set_eq_of_length_le (by omega)]
      exact getD_default _ _ _ hge

theorem length_free (s : Store α) (a : Addr) :
    (s.free a).cells.length = s.cells.length := by
  simp [Store.free]

theorem destroy_spec :
    ∀ {fuel : Nat} {s s' : Store α} {x : Option Addr} {L : List Addr},
      addrsOf fuel s x = some L → L.Nodup →
      (∀ a ∈ L, s'.get a = s.get a) →
        ∃ s'', destroyH fuel s' x = some s'' ∧
          (∀ a ∈ L, s''.get a = none) ∧
          (∀ a, a ∉ L → s''.get a = s'.get a) ∧
          s''.cells.length = s'.cells.length := by
  intro fuel
  induction fuel with
  | zero =>
      intro s s' x L h hnd hag
      cases x with
      | none =>
          rw [addrsOf] at h
          cases h
          exact ⟨s', rfl, by simp, fun a _ => rfl, rfl⟩
      | some xa => rw [addrsOf] at h; cases h
  | succ fuel ih =>
      intro s s' x L h hnd hag
      cases x with
      | none =>
          rw [addrsOf] at h
          cases h
          exact ⟨s', rfl, by simp, fun a _ => rfl, rfl⟩
      | some xa =>
          rw [addrsOf] at h
          cases hg : s.get xa with
          | none => rw [hg] at h; cases h
          | some c =>
              rw [hg] at h
              simp only [Option.bind_eq_bind, Option.some_bind, Option.bind_eq_some,
                Option.some.injEq] at h
              obtain ⟨Ll, hLl, Lr, hLr, hL⟩ := h
              subst hL
              have hnd' := List.nodup_cons.mp hnd
              have hxa_notin := hnd'.1
              have hndlr := hnd'.2
              have hndl : Ll.Nodup := hndlr.of_append_left
              have hndr : Lr.Nodup := hndlr.of_append_right
              have hdisj : Ll.Disjoint Lr := List.disjoint_of_nodup_append hndlr
              have hgx : s'.get xa = some c := by
                rw [hag xa (List.mem_cons_self _ _)]
                exact hg
              have hagl : ∀ a ∈ Ll, s'.get a = s.get a := fun a ha =>
                hag a (List.mem_cons_of_mem _ (List.mem_append_left _ ha))
              obtain ⟨s1, hd1, hn1, hp1, hlen1⟩ := ih hLl hndl hagl
              have hagr : ∀ a ∈ Lr, s1.get a = s.get a := by
                intro a ha
                rw [hp1 a (fun hc => hdisj hc ha)]
                exact hag a (List.mem_cons_of_mem _ (List.mem_append_right _ ha))
              obtain ⟨s2, hd2, hn2, hp2, hlen2⟩ := ih hLr hndr hagr
              refine ⟨s2.free xa, ?_, ?_, ?_, ?_⟩
              · rw [destroyH, hgx]
                simp only [Option.bind_eq_bind]
                rw [hd1]
                simp only [Option.some_bind]
                rw [hd2]
                rfl
              · intro a ha
                rcases List.mem_cons.mp ha with rfl | hmem
                · exact get_free_self s2 a
                · have hne : a ≠ xa := fun hc => hxa_notin (hc ▸ hmem)
                  rw [get_free_ne s2 xa a (Ne.symm hne)]
                  rcases List.mem_append.mp hmem with h1 | h1
                  · rw [hp2 a (fun hc => hdisj h1 hc)]
                    exact hn1 a h1
                  · exact hn2 a h1
              · intro a ha
                have hne : xa ≠ a := fun hc => ha (hc ▸ List.mem_cons_self _ _)
                rw [get_free_ne s2 xa a hne]
                have hal : a ∉ Ll := fun hc =>
                  ha (List.mem_cons_of_mem _ (List.mem_append_left _ hc))
                have har : a ∉ Lr := fun hc =>
                  ha (List.mem_cons_of_mem _ (List.mem_append_right _ hc))
                rw [hp2 a har, hp1 a hal]
              · rw [length_free, hlen2, hlen1]

theorem assignH_thr {ε : Type} {cp : α → Except ε α} {fuel : Nat}
    {s s' : Store α} {q other q' : Handle} {e : ε}
    (h : assignH cp fuel s false q other = .thr s' q' e) :
    q' = q ∧ CloneExt s s' := by
  rw [assignH] at h
  simp only [Bool.false_eq_true, if_false] at h
  cases hm : cloneH cp fuel s other.root with
  | ub => simp only [hm] at h; cases h
  | thr s2 e2 =>
      simp only [hm] at h
      injection h with h1 h2 h3
      subst h1
      subst h2
      exact ⟨rfl, cloneH_ext fuel s other.root s2 (Or.inl ⟨e2, hm⟩)⟩
  | ok s2 nr =>
      simp only [hm] at h
      cases hd : destroyH fuel s2 q.root with
      | none => simp only [hd] at h; cases h
      | some s3 => simp only [hd] at h; cases h

theorem assignH_ok_spec {ε : Type} {cp : α → Except ε α} (hcp : ∀ v, cp v = .ok v)
    {fuel : Nat} {s s'' : Store α} {q other q'' : Handle} {t : Node α} {Lq : List Addr}
    (hro : readTree fuel s other.root = some t)
    (hLq : addrsOf fuel s q.root = some Lq) (hnd : Lq.Nodup)
    (h : assignH cp fuel s false q other = .ok s'' q'') :
    q''.cnt = other.cnt ∧ readTree fuel s'' q''.root = some t ∧
      ∃ L, addrsOf fuel s'' q''.root = some L ∧ ∀ a ∈ L, s.cells.length ≤ a := by
  rw [assignH] at h
  simp only [Bool.false_eq_true, if_false] at h
  cases hm : cloneH cp fuel s other.root with
  | ub => simp only [hm] at h; cases h
  | thr s2 e2 => simp only [hm] at h; cases h
  | ok s2 nr =>
      simp only [hm] at h
      obtain ⟨hrd2, Lnew, had2, hLnew⟩ := cloneH_ok_spec hcp hm hro
      have hext : CloneExt s s2 := cloneH_ext fuel s other.root s2 (Or.inr ⟨nr, hm⟩)
      have hag : ∀ a ∈ Lq, s2.get a = s.get a := by
        intro a ha
        obtain ⟨cc, hcc⟩ := addrsOf_mem_get hLq a ha
        exact hext.2.1 a (get_some_lt hcc)
      obtain ⟨s3, hd3, hn3, hp3, hlen3⟩ := destroy_spec hLq hnd hag
      simp only [hd3] at h
      injection h with h1 h2
      subst h1
      subst h2
      have hagnew : ∀ a ∈ Lnew, s3.get a = s2.get a := by
        intro a ha
        refine hp3 a (fun hc => ?_)
        obtain ⟨cc, hcc⟩ := addrsOf_mem_get hLq a hc
        exact absurd (get_some_lt hcc) (not_lt.mpr (hLnew a ha))
      obtain ⟨hrd3, had3⟩ := read_frame had2 hagnew
      rw [hrd2] at hrd3
      exact ⟨rfl, hrd3, Lnew, had3, hLnew⟩

/-- C1: in every reachable queue state with `size() > 0`, `top()` returns a
comparator-maximum of the contained elements: an `m` such that for no
contained `x` does `less(x, m)` fail while `less(m, x)` holds.  The
comparator is assumed to be a strict weak order (asymmetry and
transitivity of not-less), which the default less-than satisfies. -/
theorem C1_top_is_comparator_max (lt : α → α → Bool)
    (hasym : ∀ x y : α, lt x y = true → lt y x = false)
    (htrans : ∀ x y z : α, lt x y = false → lt y z = false → lt x z = false)
    (q : PQ α) (hq : Reachable lt q) (hpos : 0 < q.sizeQ) :
    ∃ m, q.top = .ok (some m) ∧
      ∀ x ∈ q.root.toMultiset, ¬(lt x m = false ∧ lt m x = true) :=
  reachable_top_max lt hasym htrans q hq hpos

theorem C1_top_is_comparator_max_w :
    ∃ m, (((emptyPQ.push ltNat 5).push ltNat 3).push ltNat 8).top = .ok (some m) ∧
      ∀ x ∈ (((emptyPQ.push ltNat 5).push ltNat 3).push ltNat 8).root.toMultiset,
        ¬(ltNat x m = false ∧ ltNat m x = true) :=
  C1_top_is_comparator_max ltNat ltNat_asym ltNat_trans _
    (Reachable.push _ 8 (Reachable.push _ 3 (Reachable.push _ 5 Reachable.empty)))
    (by decide)

/-- C2: if the comparator throws during `push`, `pop` or `merge`, the
exception propagates and afterwards the handle and every old store cell
(hence `size()`, `top()`, the multiset of elements and all structural
invariants) are exactly as before the call; in `merge` the other queue is
not cleared; the node `push` allocated has been freed again, so no node
allocated during the failed call remains reachable or leaked. -/
theorem C2_comparator_throw_atomic {α ε : Type} :
    (∀ (cmp : α → α → Except ε Bool) (fuel : Nat) (s : Store α) (q : Handle) (e : α)
        (s' : Store α) (q' : Handle) (ex : ε),
        pushH cmp fuel s q e = .thr s' q' ex →
          q' = q ∧ (∀ a, s'.get a = s.get a) ∧ topH s' q' = topH s q ∧
            (∀ f, readTree f s' q'.root = readTree f s q.root) ∧
            (∀ a, s'.alive a = true → s.alive a = true) ∧
            s'.alive s.cells.length = false) ∧
    (∀ (cmp : α → α → Except ε Bool) (fuel : Nat) (s : Store α) (q : Handle)
        (s' : Store α) (q' : Handle) (ex : ε),
        popH cmp fuel s q = .thr s' q' ex → q' = q ∧ s' = s) ∧
    (∀ (cmp : α → α → Except ε Bool) (fuel : Nat) (s : Store α) (q o : Handle)
        (s' : Store α) (q' o' : Handle) (ex : ε),
        mergeH cmp fuel s false q o = .thr s' q' o' ex →
          q' = q ∧ o' = o ∧ s' = s) := by
  refine ⟨?_, ?_, ?_⟩
  · intro cmp fuel s q e s' q' ex h
    obtain ⟨hq, hc⟩ := pushH_thr h
    have hs' : s' = (⟨s.cells ++ [none]⟩ : Store α) := by
      cases s'; simp at hc; simp [hc]
    subst hs'
    have hg : ∀ a, (⟨s.cells ++ [none]⟩ : Store α).get a = s.get a := get_append_none s
    refine ⟨hq, hg, ?_, ?_, ?_, ?_⟩
    · rw [hq]; exact topH_congr s _ hg q
    · intro f; rw [hq]; exact readTree_congr s _ hg f q.root
    · intro a ha; rw [alive_congr s _ hg a] at ha; exact ha
    · unfold Store.alive
      rw [hg]
      unfold Store.get
      rw [List.getD_eq_getElem?_getD, List.getElem?_eq_none (le_refl _)]
      rfl
  · intro cmp fuel s q s' q' ex h
    exact popH_thr h
  · intro cmp fuel s q o s' q' o' ex h
    exact mergeH_thr h

theorem C2_comparator_throw_atomic_w :
    ((⟨some 0, 1⟩ : Handle) = ⟨some 0, 1⟩ ∧
      (∀ a, (⟨sPush.cells ++ [none]⟩ : Store Nat).get a = sPush.get a) ∧
      topH (⟨sPush.cells ++ [none]⟩ : Store Nat) ⟨some 0, 1⟩ = topH sPush ⟨some 0, 1⟩ ∧
      (∀ f, readTree f (⟨sPush.cells ++ [none]⟩ : Store Nat) (Handle.root ⟨some 0, 1⟩)
        = readTree f sPush (Handle.root ⟨some 0, 1⟩)) ∧
      (∀ a, (⟨sPush.cells ++ [none]⟩ : Store Nat).alive a = true → sPush.alive a = true) ∧
      (⟨sPush.cells ++ [none]⟩ : Store Nat).alive sPush.cells.length = false) ∧
    ((⟨some 0, 3⟩ : Handle) = ⟨some 0, 3⟩ ∧ sPop = sPop) ∧
    ((⟨some 0, 1⟩ : Handle) = ⟨some 0, 1⟩ ∧ (⟨some 1, 1⟩ : Handle) = ⟨some 1, 1⟩ ∧
      sMerge = sMerge) :=
  ⟨C2_comparator_throw_atomic.1 cmpThrow 3 sPush ⟨some 0, 1⟩ 7 ⟨sPush.cells ++ [none]⟩ ⟨some 0, 1⟩ () (by decide),
   C2_comparator_throw_atomic.2.1 cmpThrow 3 sPop ⟨some 0, 3⟩ sPop ⟨some 0, 3⟩ () (by decide),
   C2_comparator_throw_atomic.2.2 cmpThrow 3 sMerge ⟨some 0, 1⟩ ⟨some 1, 1⟩ sMerge ⟨some 0, 1⟩ ⟨some 1, 1⟩ () (by decide)⟩

/-- C3: every queue state reachable by public operations satisfies, at
every node, `rank(node.left) >= rank(node.right)` and
`rank(node) == rank(node.right) + 1`, with `rank(absent) = 0` (over the
stored `dist` fields). -/
theorem C3_leftist_rank_invariant (lt : α → α → Bool) (q : PQ α) (hq : Reachable lt q) :
    leftistOkB q.root = true := (Reachable_struct hq).1

theorem C3_leftist_rank_invariant_w :
    leftistOkB (((emptyPQ.push ltNat 5).push ltNat 3).push ltNat 8).root = true :=
  C3_leftist_rank_invariant ltNat _ (Reachable.push _ 8 (Reachable.push _ 3 (Reachable.push _ 5 Reachable.empty)))

/-- C4: a successful `merge(other)` of two distinct reachable handles
leaves the receiver with `size() = n1 + n2` and `top()` a
comparator-maximum across both original multisets, and leaves `other`
empty; and (last conjunct) if the meld throws, `other` is not cleared and
the store is unchanged — so `other` is cleared only after the meld has
fully succeeded. -/
theorem C4_merge_postconditions (lt : α → α → Bool)
    (hasym : ∀ x y : α, lt x y = true → lt y x = false)
    (htrans : ∀ x y z : α, lt x y = false → lt y z = false → lt x z = false)
    (q o : PQ α) (hq : Reachable lt q) (ho : Reachable lt o) :
    (PQ.mergeW lt false q o).1.sizeQ = q.sizeQ + o.sizeQ ∧
    (PQ.mergeW lt false q o).2 = emptyPQ ∧
    (0 < q.sizeQ + o.sizeQ →
      ∃ m, (PQ.mergeW lt false q o).1.top = .ok (some m) ∧
        ∀ x ∈ q.root.toMultiset + o.root.toMultiset,
          ¬(lt x m = false ∧ lt m x = true)) ∧
    (∀ (ε : Type) (cmp : α → α → Except ε Bool) (fuel : Nat) (s : Store α)
        (h1 h2 : Handle) (s' : Store α) (q' o' : Handle) (e : ε),
        mergeH cmp fuel s false h1 h2 = .thr s' q' o' e → o' = h2 ∧ s' = s) := by
  refine ⟨rfl, rfl, ?_, ?_⟩
  · intro hpos
    have hm : Reachable lt (PQ.mergeW lt false q o).1 := Reachable.mergeL q o hq ho
    have hsz : (PQ.mergeW lt false q o).1.sizeQ = q.sizeQ + o.sizeQ := rfl
    obtain ⟨m, htop, hmax⟩ := reachable_top_max lt hasym htrans _ hm (by rw [hsz]; exact hpos)
    refine ⟨m, htop, ?_⟩
    intro x hx
    apply hmax
    show x ∈ (meld lt q.root o.root).toMultiset
    rw [meld_toMultiset]
    exact hx
  · intro ε cmp fuel s h1 h2 s' q' o' e h
    exact ⟨(mergeH_thr h).2.1, (mergeH_thr h).2.2⟩

theorem C4_merge_postconditions_w :
    (PQ.mergeW ltNat false qW oW).1.sizeQ = qW.sizeQ + oW.sizeQ ∧
    (PQ.mergeW ltNat false qW oW).2 = emptyPQ ∧
    (0 < qW.sizeQ + oW.sizeQ →
      ∃ m, (PQ.mergeW ltNat false qW oW).1.top = .ok (some m) ∧
        ∀ x ∈ qW.root.toMultiset + oW.root.toMultiset,
          ¬(ltNat x m = false ∧ ltNat m x = true)) ∧
    (∀ (ε : Type) (cmp : Nat → Nat → Except ε Bool) (fuel : Nat) (s : Store Nat)
        (h1 h2 : Handle) (s' : Store Nat) (q' o' : Handle) (e : ε),
        mergeH cmp fuel s false h1 h2 = .thr s' q' o' e → o' = h2 ∧ s' = s) :=
  C4_merge_postconditions ltNat ltNat_asym ltNat_trans qW oW
    (Reachable.push _ 3 (Reachable.push _ 5 Reachable.empty))
    (Reachable.push _ 2 (Reachable.push _ 10 Reachable.empty))

/-- C5: pushing any finite sequence into an initially empty queue and then
popping `n` times (reading `top()` before each pop) yields exactly the
pushed elements, in comparator-descending (non-increasing) order. -/
theorem C5_heapsort (lt : α → α → Bool)
    (hasym : ∀ x y : α, lt x y = true → lt y x = false)
    (htrans : ∀ x y z : α, lt x y = false → lt y z = false → lt x z = false)
    (es : List α) :
    List.Chain' (fun a b => lt a b = false)
        (popList lt (pushAll lt emptyPQ es).cnt (pushAll lt emptyPQ es)) ∧
      ((popList lt (pushAll lt emptyPQ es).cnt (pushAll lt emptyPQ es) : List α) : Multiset α)
        = (es : Multiset α) := by
  have hreach := pushAll_reachable lt es emptyPQ Reachable.empty
  obtain ⟨h1, h2⟩ := popList_spec lt hasym htrans _ _ hreach rfl
  refine ⟨h1, ?_⟩
  rw [h2, pushAll_toMultiset]
  simp [emptyPQ, Node.toMultiset]

theorem C5_heapsort_w :
    List.Chain' (fun a b => ltNat a b = false)
        (popList ltNat (pushAll ltNat emptyPQ [5, 3, 8, 1]).cnt (pushAll ltNat emptyPQ [5, 3, 8, 1])) ∧
      ((popList ltNat (pushAll ltNat emptyPQ [5, 3, 8, 1]).cnt (pushAll ltNat emptyPQ [5, 3, 8, 1]) : List Nat) : Multiset Nat)
        = ([5, 3, 8, 1] : Multiset Nat) :=
  C5_heapsort ltNat ltNat_asym ltNat_trans [5, 3, 8, 1]

/-- C6: in every reachable state `size()` equals the number of nodes
reachable from the root; moreover `push` increments the count by one,
`pop` decrements it by one, `merge` adds the other queue's count, and a
copy reproduces the source's count. -/
theorem C6_count_consistency (lt : α → α → Bool) :
    (∀ q : PQ α, Reachable lt q → q.sizeQ = q.root.size) ∧
    (∀ (q : PQ α) (e : α), (q.push lt e).cnt = q.cnt + 1) ∧
    (∀ q q' : PQ α, q.popF lt = some q' → q'.cnt = q.cnt - 1) ∧
    (∀ q o : PQ α, (PQ.mergeW lt false q o).1.cnt = q.cnt + o.cnt) ∧
    (∀ q : PQ α, q.copy.cnt = q.cnt) := by
  refine ⟨fun q hq => (Reachable_struct hq).2, fun q e => rfl, ?_, fun q o => rfl, fun q => rfl⟩
  intro q q' h
  obtain ⟨v, l, r, d, hroot, hc, hq'⟩ := popF_some h
  subst hq'
  rfl

theorem C6_count_consistency_w :
    ((emptyPQ.push ltNat 5).sizeQ = (emptyPQ.push ltNat 5).root.size) ∧
    ((⟨Node.nil, 0⟩ : PQ Nat).cnt = 1 - 1) :=
  ⟨(C6_count_consistency ltNat).1 _ (Reachable.push _ 5 Reachable.empty),
   (C6_count_consistency ltNat).2.2.1 ⟨Node.node 3 .nil .nil 1, 1⟩ ⟨Node.nil, 0⟩
     (by simp [PQ.popF, PQ.popE, meld])⟩

/-- C7: `top()`/`pop()` raise the `EmptyQueue` condition exactly when
`size() = 0` and never otherwise; when raised, no comparator invocation
happens and no state changes (the result is the same for every
comparator, including an always-throwing one, and the store is returned
untouched); the error type has a single constructor, and `push` never
raises it. -/
theorem C7_emptyqueue_signal {α ε : Type} :
    (∀ e : QErr, e = QErr.containerIsEmpty) ∧
    (∀ (s : Store α) (q : Handle), topH s q = .emp ↔ q.cnt = 0) ∧
    (∀ (cmp : α → α → Except ε Bool) (fuel : Nat) (s : Store α) (q : Handle),
        q.cnt = 0 → popH cmp fuel s q = .emp s q) ∧
    (∀ (cmp : α → α → Except ε Bool) (fuel : Nat) (s : Store α) (q : Handle)
        (s2 : Store α) (q2 : Handle),
        popH cmp fuel s q = .emp s2 q2 → q.cnt = 0 ∧ s2 = s ∧ q2 = q) ∧
    (∀ (cmp : α → α → Except ε Bool) (fuel : Nat) (s : Store α) (q : Handle) (e : α)
        (s2 : Store α) (q2 : Handle),
        pushH cmp fuel s q e ≠ .emp s2 q2) := by
  refine ⟨?_, ?_, ?_, ?_, ?_⟩
  · intro e; cases e; rfl
  · intro s q
    constructor
    · intro h
      by_contra hc
      rw [topH] at h
      rw [if_neg hc] at h
      split at h <;> try (cases h)
      split at h <;> cases h
    · intro h; simp [topH, h]
  · intro cmp fuel s q h; simp [popH, h]
  · intro cmp fuel s q s2 q2 h
    by_cases hc : q.cnt = 0
    · simp [popH, hc] at h
      exact ⟨hc, h.1.symm, h.2.symm⟩
    · rw [popH, if_neg hc] at h
      repeat' split at h
      all_goals cases h
  · intro cmp fuel s q e s2 q2 h
    rw [pushH] at h
    repeat' split at h
    all_goals cases h

theorem C7_emptyqueue_signal_w :
    (popH cmpThrow 3 sPush ⟨none, 0⟩ = .emp sPush ⟨none, 0⟩) ∧
    ((0 : Nat) = 0 ∧ sPush = sPush ∧ (⟨none, 0⟩ : Handle) = ⟨none, 0⟩) ∧
    (topH sPush (⟨none, 0⟩ : Handle) = .emp) :=
  ⟨(C7_emptyqueue_signal (α := Nat) (ε := Unit)).2.2.1 cmpThrow 3 sPush ⟨none, 0⟩ (by decide),
   (C7_emptyqueue_signal (α := Nat) (ε := Unit)).2.2.2.1 cmpThrow 3 sPush ⟨none, 0⟩ sPush ⟨none, 0⟩ (by decide),
   ((C7_emptyqueue_signal (α := Nat) (ε := Unit)).2.1 sPush ⟨none, 0⟩).mpr (by decide)⟩

/-- C8 counterexample: copy-assigning from a two-node queue with an
element copy that throws on the second value propagates the exception
with the target unchanged, but the node the clone had already allocated
(address 2) is still allocated afterwards while being reachable from
neither queue — a leaked heap node, contradicting the claim that no heap
node or other resource is leaked. -/
theorem C8_clone_leak_cex :
    assignH cpThrow2 10 sClone false ⟨none, 0⟩ ⟨some 0, 2⟩ = .thr sCloneLeak ⟨none, 0⟩ () ∧
    sCloneLeak.alive 2 = true ∧ sClone.alive 2 = false ∧
    addrsOf 10 sCloneLeak (some 0) = some [0, 1] ∧ ((2 : Addr) ∉ ([0, 1] : List Addr)) := by
  decide

/-- C8 (amended): copy-construction/copy-assignment deep-clone the tree —
on success the target holds a tree with identical values and ranks, built
entirely from fresh nodes sharing no storage with the source — and if
cloning fails partway the target queue and all previously existing nodes
are unchanged; however the nodes allocated by the partial clone are not
freed (they remain allocated, i.e. leaked). -/
theorem C8_copy_amended {α ε : Type} :
    (∀ (cp : α → Except ε α) (fuel : Nat) (s s' : Store α) (q other q' : Handle) (e : ε),
        assignH cp fuel s false q other = .thr s' q' e →
          q' = q ∧ (∀ a, a < s.cells.length → s'.get a = s.get a) ∧
            (∀ a, s.cells.length ≤ a → a < s'.cells.length → s'.alive a = true)) ∧
    (∀ cp : α → Except ε α, (∀ v, cp v = .ok v) →
      ∀ (fuel : Nat) (s s2 : Store α) (q other q2 : Handle) (t : Node α) (Lq : List Addr),
        readTree fuel s other.root = some t →
        addrsOf fuel s q.root = some Lq → Lq.Nodup →
        assignH cp fuel s false q other = .ok s2 q2 →
          q2.cnt = other.cnt ∧ readTree fuel s2 q2.root = some t ∧
            ∃ L, addrsOf fuel s2 q2.root = some L ∧ ∀ a ∈ L, s.cells.length ≤ a) := by
  constructor
  · intro cp fuel s s' q other q' e h
    obtain ⟨hq, hext⟩ := assignH_thr h
    exact ⟨hq, hext.2.1, hext.2.2⟩
  · intro cp hcp fuel s s2 q other q2 t Lq hro hLq hnd h
    exact assignH_ok_spec hcp hro hLq hnd h

theorem C8_copy_amended_w :
    ((⟨none, 0⟩ : Handle) = ⟨none, 0⟩ ∧
      (∀ a, a < sClone.cells.length → sCloneLeak.get a = sClone.get a) ∧
      (∀ a, sClone.cells.length ≤ a → a < sCloneLeak.cells.length →
        sCloneLeak.alive a = true)) ∧
    ((⟨some 2, 2⟩ : Handle).cnt = (⟨some 0, 2⟩ : Handle).cnt ∧
      readTree 10 sCloneOk (Handle.root ⟨some 2, 2⟩)
        = some (.node 3 (.node 2 .nil .nil 1) .nil 1) ∧
      ∃ L, addrsOf 10 sCloneOk (Handle.root ⟨some 2, 2⟩) = some L ∧
        ∀ a ∈ L, sClone.cells.length ≤ a) :=
  ⟨C8_copy_amended.1 cpThrow2 10 sClone sCloneLeak ⟨none, 0⟩ ⟨some 0, 2⟩ ⟨none, 0⟩ () (by decide),
   C8_copy_amended.2 cpId (fun v => rfl) 10 sClone sCloneOk ⟨none, 0⟩ ⟨some 0, 2⟩ ⟨some 2, 2⟩
     (.node 3 (.node 2 .nil .nil 1) .nil 1) [] (by decide) (by decide) (by decide) (by decide)⟩

/-- C9: self-merge (`merge` called with the receiver's own handle, the
`this == &other` test) is a no-op: zero comparator invocations and no
change to root, count, tree or store, for every comparator including a
throwing one. -/
theorem C9_self_merge_noop {α : Type} :
    (∀ (lt : α → α → Bool) (q : PQ α), PQ.mergeWC lt true q q = ((q, q), 0)) ∧
    (∀ (ε : Type) (cmp : α → α → Except ε Bool) (fuel : Nat) (s : Store α) (q : Handle),
        mergeH cmp fuel s true q q = .ok s q q) := by
  refine ⟨fun lt q => rfl, fun ε cmp fuel s q => by simp [mergeH]⟩

/-- C10: self-assignment is detected (`this == &other`) and is a complete
no-op: no clone, no allocation (the store is returned untouched), and
root, count and comparator are unchanged. -/
theorem C10_self_assign_noop {α : Type} :
    (∀ q : PQC α, assignWC true q q = (q, 0)) ∧
    (∀ (ε : Type) (cp : α → Except ε α) (fuel : Nat) (s : Store α) (q : Handle),
        assignH cp fuel s true q q = .ok s q) := by
  refine ⟨fun q => rfl, fun ε cp fuel s q => by simp [assignH]⟩
